import Mathlib

/-!
Verification of the in-memory indexing layer of the `revealer` repository
(`src/clues.rs` and `src/locations.rs`), shallowly embedded in Lean 4.

The Rust `bevy::utils::HashMap` is modelled as an association list
(`List (K × V)`): `insert` replaces the value at an existing key and
otherwise appends the entry, `get` finds the first matching key, and
`remove` deletes the first matching entry while returning its value.
All content- and per-key-order properties proved below are independent
of the arbitrary cross-key iteration order of the real hash map; claims
that do depend on it are treated separately.
Identifier wrapper types (`ClueId`, `PersonId`, `LocationId`) are opaque
string wrappers with exact string equality, so they are embedded as
`String`.
-/

/-- Lookup in an association list: first entry whose key matches. -/
def alGet {K V : Type} [DecidableEq K] : List (K × V) → K → Option V
  | [], _ => none
  | (k, v) :: rest, key => if k = key then some v else alGet rest key

/-- `HashMap::insert`: replace the value at an existing key, else add the entry. -/
def alInsert {K V : Type} [DecidableEq K] : List (K × V) → K → V → List (K × V)
  | [], k, v => [(k, v)]
  | (k', v') :: rest, k, v =>
    if k' = k then (k, v) :: rest else (k', v') :: alInsert rest k v

/-- `HashMap::remove`: the removed value (if any) and the remaining map. -/
def alRemoveGet {K V : Type} [DecidableEq K] : List (K × V) → K → Option V × List (K × V)
  | [], _ => (none, [])
  | (k', v') :: rest, k =>
    if k' = k then (some v', rest)
    else
      let r := alRemoveGet rest k
      (r.1, (k', v') :: r.2)

/-- The `match get_mut { Some => push, None => insert vec![v] }` idiom used by
both indexes to append one id to the sequence stored under a key. -/
def alPushAt {K V : Type} [DecidableEq K] (m : List (K × List V)) (k : K) (v : V) :
    List (K × List V) :=
  match alGet m k with
  | some l => alInsert m k (l ++ [v])
  | none => alInsert m k [v]

/-- Occurrences of a key in a list of ids (used to count duplicate references). -/
def occCount (ps : List String) (k : String) : Nat :=
  (ps.filter (fun q => q = k)).length

/-! ## Clues (`src/clues.rs`) -/

/-- `Clue` record: id, referenced locations, referenced persons, information. -/
structure Clue where
  id : String
  locations : List String
  persons : List String
  information : String
deriving DecidableEq, Repr

/-- `CluesFile`: the raw parsed sequence of clue records. -/
structure CluesFile where
  clues : List Clue
deriving DecidableEq, Repr

/-- The `Clues` index: primary storage plus the two reverse-lookup tables. -/
structure Clues where
  clues : List (String × Clue)
  by_person : List (String × List String)
  by_location : List (String × List String)
deriving DecidableEq, Repr

/-- `Clues::new` -/
def Clues.new : Clues := ⟨[], [], []⟩

/-- `Clues::insert`: append `clue.id` under every referenced person and
location, then store/overwrite the primary record keyed by `clue.id`. -/
def Clues.insert (c : Clues) (clue : Clue) : Clues :=
  let bp := clue.persons.foldl (fun m p => alPushAt m p clue.id) c.by_person
  let bl := clue.locations.foldl (fun m l => alPushAt m l clue.id) c.by_location
  ⟨alInsert c.clues clue.id clue, bp, bl⟩

/-- `From<CluesFile> for Clues`: insert every clue in file order. -/
def cluesFrom (file : CluesFile) : Clues :=
  file.clues.foldl Clues.insert Clues.new

/-- `Clues::get` -/
def Clues.get (c : Clues) (id : String) : Option Clue :=
  alGet c.clues id

/-- `Clues::get_by_location`: the location's id sequence resolved against
primary storage, dropping unresolved ids. -/
def Clues.get_by_location (c : Clues) (loc : String) : List Clue :=
  ((alGet c.by_location loc).getD []).filterMap (fun id => alGet c.clues id)

/-- `Clues::get_by_person`: symmetric over the person table. -/
def Clues.get_by_person (c : Clues) (p : String) : List Clue :=
  ((alGet c.by_person p).getD []).filterMap (fun id => alGet c.clues id)

/-- `Clues::get_by_person_and_location`: the person's id sequence filtered by
membership in the location's id sequence, then resolved. -/
def Clues.get_by_person_and_location (c : Clues) (p l : String) : List Clue :=
  let people := (alGet c.by_person p).getD []
  let locs := (alGet c.by_location l).getD []
  (people.filter (fun id => locs.contains id)).filterMap (fun id => alGet c.clues id)

/-! ## Locations (`src/locations.rs`) -/

/-- `Location` record, including the derived `children_locations`. -/
structure Location where
  id : String
  name : String
  parent_locations : List String
  children_locations : List String
  info : Option String
deriving DecidableEq, Repr

/-- `LocationDeser`: the draft record parsed from the file (no children). -/
structure LocationDeser where
  id : String
  name : String
  parent_locations : List String
  info : Option String
deriving DecidableEq, Repr

/-- `LocationsFile`: the raw parsed sequence of location drafts. -/
structure LocationsFile where
  locations : List LocationDeser
deriving DecidableEq, Repr

/-- The `Locations` index. -/
structure Locations where
  locations : List (String × Location)
deriving DecidableEq, Repr

/-- Replace the derived children list of a location record. -/
def withChildren (loc : Location) (cs : List String) : Location :=
  ⟨loc.id, loc.name, loc.parent_locations, cs, loc.info⟩

/-- Phase 1 of `From<LocationsFile>`: store every draft with empty children. -/
def locPhase1 (file : LocationsFile) : List (String × Location) :=
  file.locations.foldl
    (fun m d => alInsert m d.id ⟨d.id, d.name, d.parent_locations, [], d.info⟩) []

/-- Phase 2: build the temporary `parent_id → children` map by scanning every
stored record's `parent_locations`, appending the record's own id. -/
def locPhase2 (m : List (String × Location)) : List (String × List String) :=
  m.foldl
    (fun cm p => p.2.parent_locations.foldl (fun cm q => alPushAt cm q p.1) cm) []

/-- Phase 3: move each id's accumulated children out of the temporary map with
`remove(id).unwrap()`; the `unwrap` panic (when an id has no entry) is
modelled as `none`. -/
def locPhase3 : List (String × Location) → List (String × List String) →
    Option (List (String × Location))
  | [], _ => some []
  | (id, loc) :: rest, cm =>
    match alRemoveGet cm id with
    | (none, _) => none
    | (some cs, cm') =>
      match locPhase3 rest cm' with
      | none => none
      | some rest' => some ((id, withChildren loc cs) :: rest')

/-- `From<LocationsFile> for Locations`; `none` models the `unwrap` panic in
the final children-assignment pass. -/
def locationsFrom (file : LocationsFile) : Option Locations :=
  (locPhase3 (locPhase1 file) (locPhase2 (locPhase1 file))).map (fun l => ⟨l⟩)

/-- `Locations::get` -/
def Locations.get (ls : Locations) (id : String) : Option Location :=
  alGet ls.locations id

/-- `Locations::iter_parents`: resolve the record's `parent_locations`,
dropping unresolved ids; empty when `id` is unknown. -/
def Locations.iter_parents (ls : Locations) (id : String) : List Location :=
  match alGet ls.locations id with
  | none => []
  | some l => l.parent_locations.filterMap (fun pid => ls.get pid)

/-- `Locations::iter_children`: symmetric over the derived children list. -/
def Locations.iter_children (ls : Locations) (id : String) : List Location :=
  match alGet ls.locations id with
  | none => []
  | some l => l.children_locations.filterMap (fun cid => ls.get cid)

/-! ## Concrete example inputs from the spec's scenarios -/

/-- The spec scenario: castle with no parents, tower with parent castle. -/
def castleTowerFile : LocationsFile :=
  ⟨[⟨"castle", "Castle", [], none⟩, ⟨"tower", "Tower", ["castle"], none⟩]⟩

/-- A two-location parent cycle, on which construction succeeds. -/
def cycleFile : LocationsFile :=
  ⟨[⟨"a", "A", ["b"], none⟩, ⟨"b", "B", ["a"], none⟩]⟩

/-- The index built from `cycleFile`. -/
def cycleIdx : Locations :=
  ⟨[("a", ⟨"a", "A", ["b"], ["b"], none⟩), ("b", ⟨"b", "B", ["a"], ["a"], none⟩)]⟩

/-- The clue `c1` of the spec scenario. -/
def c1clue : Clue := ⟨"c1", ["castle"], ["alice"], "info one"⟩

/-- The clue `c2` of the spec scenario. -/
def c2clue : Clue := ⟨"c2", ["tower"], ["alice"], "info two"⟩

/-- A replacement clue reusing id `c1`. -/
def c3clue : Clue := ⟨"c1", ["castle"], ["bob"], "revised"⟩

/-- The clues file of the spec scenario. -/
def demoFile : CluesFile := ⟨[c1clue, c2clue]⟩

/-- The index built from `demoFile`. -/
def demoClues : Clues := cluesFrom demoFile

/-! ## Association-list lemmas -/

theorem alGet_alInsert_self {K V : Type} [DecidableEq K] (m : List (K × V)) (k : K) (v : V) :
    alGet (alInsert m k v) k = some v := by
  induction m with
  | nil => simp [alInsert, alGet]
  | cons p rest ih =>
    obtain ⟨k', v'⟩ := p
    by_cases h : k' = k
    · simp [alInsert, h, alGet]
    · simp [alInsert, h, alGet, ih]

theorem alGet_alInsert_ne {K V : Type} [DecidableEq K] (m : List (K × V)) {k j : K} (v : V)
    (h : ¬ k = j) : alGet (alInsert m k v) j = alGet m j := by
  induction m with
  | nil => simp [alInsert, alGet, h]
  | cons p rest ih =>
    obtain ⟨k', v'⟩ := p
    by_cases h' : k' = k
    · subst h'; simp [alInsert, alGet, h]
    · simp [alInsert, h', alGet, ih]

theorem alGetD_alPushAt_self {K V : Type} [DecidableEq K] (m : List (K × List V)) (k : K)
    (v : V) : (alGet (alPushAt m k v) k).getD [] = (alGet m k).getD [] ++ [v] := by
  unfold alPushAt
  cases h : alGet m k with
  | none => simp [h, alGet_alInsert_self]
  | some l => simp [h, alGet_alInsert_self]

theorem alGet_alPushAt_ne {K V : Type} [DecidableEq K] (m : List (K × List V)) {k j : K}
    (v : V) (h : ¬ k = j) : alGet (alPushAt m k v) j = alGet m j := by
  unfold alPushAt
  cases alGet m k with
  | none => exact alGet_alInsert_ne m _ h
  | some l => exact alGet_alInsert_ne m _ h

theorem occCount_cons (q k : String) (rest : List String) :
    occCount (q :: rest) k = if q = k then occCount rest k + 1 else occCount rest k := by
  by_cases h : q = k <;> simp [occCount, List.filter_cons, h]

theorem occCount_eq_zero {k : String} {ps : List String} (h : k ∉ ps) :
    occCount ps k = 0 := by
  induction ps with
  | nil => rfl
  | cons q rest ih =>
    rw [occCount_cons]
    have hq : ¬ q = k := fun e => h (e ▸ List.mem_cons_self q rest)
    simp [hq]
    exact ih (fun e => h (List.mem_cons_of_mem q e))

theorem occCount_pos {k : String} {ps : List String} (h : k ∈ ps) :
    0 < occCount ps k := by
  induction ps with
  | nil => cases h
  | cons q rest ih =>
    rw [occCount_cons]
    by_cases hq : q = k
    · simp [hq]
    · have : k ∈ rest := by
        cases List.mem_cons.1 h with
        | inl e => exact absurd e.symm hq
        | inr e => exact e
      simp [hq]
      exact ih this

theorem alGetD_fold_push (ps : List String) (v k : String) :
    ∀ m : List (String × List String),
      (alGet (ps.foldl (fun cm q => alPushAt cm q v) m) k).getD [] =
        (alGet m k).getD [] ++ List.replicate (occCount ps k) v := by
  induction ps with
  | nil => intro m; simp [occCount]
  | cons q rest ih =>
    intro m
    rw [List.foldl_cons, ih, occCount_cons]
    by_cases h : q = k
    · subst h
      rw [alGetD_alPushAt_self]
      simp [List.replicate_succ, List.append_assoc]
    · rw [alGet_alPushAt_ne m v h]
      simp [h]

theorem alGet_fold_push_not_mem {k : String} (ps : List String) (v : String)
    (m : List (String × List String)) (h : k ∉ ps) :
    alGet (ps.foldl (fun cm q => alPushAt cm q v) m) k = alGet m k := by
  induction ps generalizing m with
  | nil => rfl
  | cons q rest ih =>
    rw [List.foldl_cons]
    have hq : ¬ q = k := fun e => h (e ▸ List.mem_cons_self q rest)
    rw [ih _ (fun e => h (List.mem_cons_of_mem q e)), alGet_alPushAt_ne m v hq]

/-! ## Lemmas about `Clues::insert` and `From<CluesFile>` -/

theorem byPerson_insert (cs : Clues) (c : Clue) (p : String) :
    (alGet (cs.insert c).by_person p).getD [] =
      (alGet cs.by_person p).getD [] ++ List.replicate (occCount c.persons p) c.id := by
  simpa [Clues.insert] using alGetD_fold_push c.persons c.id p cs.by_person

theorem byLocation_insert (cs : Clues) (c : Clue) (l : String) :
    (alGet (cs.insert c).by_location l).getD [] =
      (alGet cs.by_location l).getD [] ++ List.replicate (occCount c.locations l) c.id := by
  simpa [Clues.insert] using alGetD_fold_push c.locations c.id l cs.by_location

theorem get_insert_self (cs : Clues) (c : Clue) : (cs.insert c).get c.id = some c := by
  simp [Clues.insert, Clues.get, alGet_alInsert_self]

theorem get_insert_ne (cs : Clues) (c : Clue) {i : String} (h : ¬ c.id = i) :
    (cs.insert c).get i = cs.get i := by
  simp [Clues.insert, Clues.get, alGet_alInsert_ne _ _ h]

theorem byPerson_foldl (cls : List Clue) (p : String) :
    ∀ st : Clues, (alGet (cls.foldl Clues.insert st).by_person p).getD [] =
      (alGet st.by_person p).getD [] ++
        (cls.map (fun c => List.replicate (occCount c.persons p) c.id)).flatten := by
  induction cls with
  | nil => intro st; simp
  | cons c rest ih =>
    intro st
    rw [List.foldl_cons, ih, byPerson_insert]
    simp [List.append_assoc]

theorem byLocation_foldl (cls : List Clue) (l : String) :
    ∀ st : Clues, (alGet (cls.foldl Clues.insert st).by_location l).getD [] =
      (alGet st.by_location l).getD [] ++
        (cls.map (fun c => List.replicate (occCount c.locations l) c.id)).flatten := by
  induction cls with
  | nil => intro st; simp
  | cons c rest ih =>
    intro st
    rw [List.foldl_cons, ih, byLocation_insert]
    simp [List.append_assoc]

theorem get_foldl_not_mem (cls : List Clue) {i : String} (h : ∀ c ∈ cls, ¬ c.id = i) :
    ∀ st : Clues, alGet (cls.foldl Clues.insert st).clues i = alGet st.clues i := by
  induction cls with
  | nil => intro st; rfl
  | cons c rest ih =>
    intro st
    rw [List.foldl_cons, ih (fun d hd => h d (List.mem_cons_of_mem c hd))]
    exact alGet_alInsert_ne _ _ (h c (List.mem_cons_self c rest))

/-! ## Further association-list lemmas, for the location index -/

theorem alGet_mem {K V : Type} [DecidableEq K] {m : List (K × V)} {k : K} {v : V}
    (h : alGet m k = some v) : (k, v) ∈ m := by
  induction m with
  | nil => simp [alGet] at h
  | cons p rest ih =>
    obtain ⟨k', v'⟩ := p
    by_cases hk : k' = k
    · subst hk
      simp [alGet] at h
      simp [h]
    · rw [alGet, if_neg hk] at h
      exact List.mem_cons_of_mem _ (ih h)

theorem mem_alGet {K V : Type} [DecidableEq K] {m : List (K × V)} {k : K} {v : V}
    (hn : (m.map Prod.fst).Nodup) (h : (k, v) ∈ m) : alGet m k = some v := by
  induction m with
  | nil => cases h
  | cons p rest ih =>
    obtain ⟨k', v'⟩ := p
    rw [List.map_cons, List.nodup_cons] at hn
    cases List.mem_cons.1 h with
    | inl e =>
      obtain ⟨e1, e2⟩ := Prod.mk.injEq .. ▸ e
      simp [alGet, e1.symm, e2]
    | inr hrest =>
      have hk : ¬ k' = k := by
        intro e
        subst e
        have hm : Prod.fst (k', v) ∈ rest.map Prod.fst :=
          List.mem_map_of_mem Prod.fst hrest
        exact hn.1 hm
      rw [alGet, if_neg hk]
      exact ih hn.2 hrest

theorem alGet_eq_none_iff {K V : Type} [DecidableEq K] (m : List (K × V)) (k : K) :
    alGet m k = none ↔ k ∉ m.map Prod.fst := by
  induction m with
  | nil => simp [alGet]
  | cons p rest ih =>
    obtain ⟨k', v'⟩ := p
    by_cases hk : k' = k
    · simp [alGet, hk]
    · simp [alGet, hk, ih, Ne.symm hk]

theorem mem_alInsert {K V : Type} [DecidableEq K] {m : List (K × V)} {k : K} {v : V}
    {p : K × V} (h : p ∈ alInsert m k v) : p ∈ m ∨ p = (k, v) := by
  induction m with
  | nil => simpa [alInsert] using h
  | cons q rest ih =>
    obtain ⟨k', v'⟩ := q
    by_cases hk : k' = k
    · rw [alInsert, if_pos hk] at h
      cases List.mem_cons.1 h with
      | inl e => exact Or.inr e
      | inr e => exact Or.inl (List.mem_cons_of_mem _ e)
    · rw [alInsert, if_neg hk] at h
      cases List.mem_cons.1 h with
      | inl e => exact Or.inl (e ▸ List.mem_cons_self _ _)
      | inr e =>
        cases ih e with
        | inl e' => exact Or.inl (List.mem_cons_of_mem _ e')
        | inr e' => exact Or.inr e'

theorem nodup_keys_alInsert {K V : Type} [DecidableEq K] (m : List (K × V)) (k : K) (v : V)
    (hn : (m.map Prod.fst).Nodup) : ((alInsert m k v).map Prod.fst).Nodup := by
  induction m with
  | nil => simp [alInsert]
  | cons p rest ih =>
    obtain ⟨k', v'⟩ := p
    rw [List.map_cons, List.nodup_cons] at hn
    by_cases hk : k' = k
    · subst hk
      rw [alInsert, if_pos rfl, List.map_cons, List.nodup_cons]
      exact hn
    · rw [alInsert, if_neg hk, List.map_cons, List.nodup_cons]
      refine ⟨?_, ih hn.2⟩
      intro hmem
      obtain ⟨q, hq, hqf⟩ := List.mem_map.1 hmem
      cases mem_alInsert hq with
      | inl e => exact hn.1 (hqf ▸ List.mem_map_of_mem Prod.fst e)
      | inr e =>
        subst e
        exact hk hqf.symm

theorem alRemoveGet_fst {K V : Type} [DecidableEq K] (m : List (K × V)) (k : K) :
    (alRemoveGet m k).1 = alGet m k := by
  induction m with
  | nil => rfl
  | cons p rest ih =>
    obtain ⟨k', v'⟩ := p
    by_cases hk : k' = k
    · simp [alRemoveGet, alGet, hk]
    · simp [alRemoveGet, alGet, hk, ih]

theorem alGet_alRemoveGet_ne {K V : Type} [DecidableEq K] (m : List (K × V)) {k j : K}
    (h : ¬ k = j) : alGet (alRemoveGet m k).2 j = alGet m j := by
  induction m with
  | nil => rfl
  | cons p rest ih =>
    obtain ⟨k', v'⟩ := p
    by_cases hk : k' = k
    · subst hk
      simp [alRemoveGet, alGet, h]
    · simp [alRemoveGet, alGet, hk]
      by_cases hj : k' = j
      · simp [hj]
      · simp [hj, ih]

theorem alGet_map_val {K V W : Type} [DecidableEq K] (g : K → V → W) (m : List (K × V))
    (k : K) :
    alGet (m.map (fun p => (p.1, g p.1 p.2))) k = (alGet m k).map (g k) := by
  induction m with
  | nil => rfl
  | cons p rest ih =>
    obtain ⟨k', v'⟩ := p
    by_cases hk : k' = k
    · subst hk
      simp [alGet]
    · simp [alGet, hk, ih]


/-! ## Lemmas about the three construction phases of the location index -/

theorem occCount_ne_zero_iff (ps : List String) (k : String) :
    occCount ps k ≠ 0 ↔ k ∈ ps := by
  constructor
  · intro h
    by_contra hm
    exact h (occCount_eq_zero hm)
  · intro h
    exact (occCount_pos h).ne'

theorem mem_foldl_alInsert_draft (ds : List LocationDeser) :
    ∀ (m : List (String × Location)) (p : String × Location),
      p ∈ ds.foldl
        (fun m d => alInsert m d.id ⟨d.id, d.name, d.parent_locations, [], d.info⟩) m →
      p ∈ m ∨ ∃ d ∈ ds, p = (d.id, ⟨d.id, d.name, d.parent_locations, [], d.info⟩) := by
  induction ds with
  | nil => intro m p h; exact Or.inl h
  | cons d rest ih =>
    intro m p h
    rw [List.foldl_cons] at h
    cases ih _ p h with
    | inl h' =>
      cases mem_alInsert h' with
      | inl h'' => exact Or.inl h''
      | inr h'' => exact Or.inr ⟨d, List.mem_cons_self d rest, h''⟩
    | inr h' =>
      obtain ⟨d', hd', he⟩ := h'
      exact Or.inr ⟨d', List.mem_cons_of_mem _ hd', he⟩

theorem mem_locPhase1 {file : LocationsFile} {p : String × Location}
    (h : p ∈ locPhase1 file) :
    ∃ d ∈ file.locations, p = (d.id, ⟨d.id, d.name, d.parent_locations, [], d.info⟩) := by
  cases mem_foldl_alInsert_draft file.locations [] p h with
  | inl h' => cases h'
  | inr h' => exact h'

theorem locPhase1_key_id {file : LocationsFile} {k : String} {loc : Location}
    (h : (k, loc) ∈ locPhase1 file) : loc.id = k := by
  obtain ⟨d, _, he⟩ := mem_locPhase1 h
  obtain ⟨e1, e2⟩ := Prod.mk.injEq .. ▸ he
  rw [e2]
  exact e1.symm

theorem locPhase1_nodup (file : LocationsFile) :
    ((locPhase1 file).map Prod.fst).Nodup := by
  have aux : ∀ (ds : List LocationDeser) (m : List (String × Location)),
      (m.map Prod.fst).Nodup →
      ((ds.foldl
        (fun m d => alInsert m d.id ⟨d.id, d.name, d.parent_locations, [], d.info⟩)
        m).map Prod.fst).Nodup := by
    intro ds
    induction ds with
    | nil => intro m h; exact h
    | cons d rest ih =>
      intro m h
      rw [List.foldl_cons]
      exact ih _ (nodup_keys_alInsert m d.id _ h)
  exact aux file.locations [] (by simp)

theorem mem_fold_push_iff (ps : List String) (v k x : String)
    (m : List (String × List String)) :
    x ∈ (alGet (ps.foldl (fun cm q => alPushAt cm q v) m) k).getD [] ↔
      x ∈ (alGet m k).getD [] ∨ (x = v ∧ k ∈ ps) := by
  rw [alGetD_fold_push, List.mem_append, List.mem_replicate]
  constructor
  · rintro (h | ⟨hne, he⟩)
    · exact Or.inl h
    · exact Or.inr ⟨he, (occCount_ne_zero_iff ps k).1 hne⟩
  · rintro (h | ⟨he, hk⟩)
    · exact Or.inl h
    · exact Or.inr ⟨(occCount_ne_zero_iff ps k).2 hk, he⟩

theorem mem_locPhase2_aux (m : List (String × Location)) (k x : String) :
    ∀ cm, x ∈ (alGet (m.foldl
        (fun cm p => p.2.parent_locations.foldl (fun cm q => alPushAt cm q p.1) cm)
        cm) k).getD [] ↔
      x ∈ (alGet cm k).getD [] ∨ ∃ loc, (x, loc) ∈ m ∧ k ∈ loc.parent_locations := by
  induction m with
  | nil => intro cm; simp
  | cons p rest ih =>
    obtain ⟨i, loc⟩ := p
    intro cm
    rw [List.foldl_cons, ih, mem_fold_push_iff]
    constructor
    · rintro ((h | ⟨hx, hk⟩) | ⟨loc', hmem, hk⟩)
      · exact Or.inl h
      · exact Or.inr ⟨loc, by rw [hx]; exact List.mem_cons_self _ _, hk⟩
      · exact Or.inr ⟨loc', List.mem_cons_of_mem _ hmem, hk⟩
    · rintro (h | ⟨loc', hmem, hk⟩)
      · exact Or.inl (Or.inl h)
      · cases List.mem_cons.1 hmem with
        | inl e =>
          obtain ⟨e1, e2⟩ := Prod.mk.injEq .. ▸ e
          exact Or.inl (Or.inr ⟨e1, e2 ▸ hk⟩)
        | inr e => exact Or.inr ⟨loc', e, hk⟩

theorem mem_locPhase2_iff (m : List (String × Location)) (k x : String) :
    x ∈ (alGet (locPhase2 m) k).getD [] ↔
      ∃ loc, (x, loc) ∈ m ∧ k ∈ loc.parent_locations := by
  rw [locPhase2, mem_locPhase2_aux]
  simp [alGet]

theorem locPhase3_eq_map :
    ∀ (m : List (String × Location)) (cm : List (String × List String))
      (m' : List (String × Location)),
      (m.map Prod.fst).Nodup → locPhase3 m cm = some m' →
      m' = m.map (fun p => (p.1, withChildren p.2 ((alGet cm p.1).getD []))) := by
  intro m
  induction m with
  | nil =>
    intro cm m' _ h
    rw [locPhase3] at h
    cases h
    rfl
  | cons p rest ih =>
    obtain ⟨id, loc⟩ := p
    intro cm m' hn h
    rw [List.map_cons, List.nodup_cons] at hn
    rw [locPhase3] at h
    cases hrem : alRemoveGet cm id with
    | mk o cm2 =>
      rw [hrem] at h
      cases o with
      | none => simp at h
      | some cs =>
        simp only [] at h
        cases hrec : locPhase3 rest cm2 with
        | none => rw [hrec] at h; simp at h
        | some rest' =>
          rw [hrec] at h
          simp only [Option.some.injEq] at h
          have hcs : alGet cm id = some cs := by
            rw [← alRemoveGet_fst, hrem]
          have hrest : rest' = rest.map
              (fun p => (p.1, withChildren p.2 ((alGet cm2 p.1).getD []))) :=
            ih cm2 rest' hn.2 hrec
          have hsame : ∀ p ∈ rest,
              (p.1, withChildren p.2 ((alGet cm2 p.1).getD [])) =
              (p.1, withChildren p.2 ((alGet cm p.1).getD [])) := by
            intro p hp
            have hne : ¬ id = p.1 := by
              intro e
              have : Prod.fst p ∈ rest.map Prod.fst := List.mem_map_of_mem Prod.fst hp
              rw [← e] at this
              exact hn.1 this
            have hcm2 : cm2 = (alRemoveGet cm id).2 := by rw [hrem]
            rw [hcm2, alGet_alRemoveGet_ne cm hne]
          rw [← h, List.map_cons, hcs]
          simp only [Option.getD_some]
          rw [hrest, List.map_congr_left hsame]

theorem locationsFrom_eq_map {file : LocationsFile} {locs : Locations}
    (h : locationsFrom file = some locs) :
    locs.locations = (locPhase1 file).map
      (fun p => (p.1, withChildren p.2
        ((alGet (locPhase2 (locPhase1 file)) p.1).getD []))) := by
  rw [locationsFrom] at h
  obtain ⟨m', hm', he⟩ := Option.map_eq_some'.1 h
  rw [← he]
  exact locPhase3_eq_map _ _ _ (locPhase1_nodup file) hm'

theorem locs_get_eq {file : LocationsFile} {locs : Locations}
    (h : locationsFrom file = some locs) (j : String) :
    locs.get j = (alGet (locPhase1 file) j).map
      (fun loc => withChildren loc ((alGet (locPhase2 (locPhase1 file)) j).getD [])) := by
  rw [Locations.get, locationsFrom_eq_map h]
  exact alGet_map_val
    (fun k v => withChildren v ((alGet (locPhase2 (locPhase1 file)) k).getD []))
    (locPhase1 file) j

theorem locs_get_entry {file : LocationsFile} {locs : Locations}
    (hc : locationsFrom file = some locs) {k : String} {L : Location}
    (hL : locs.get k = some L) :
    ∃ loc0, alGet (locPhase1 file) k = some loc0 ∧
      L = withChildren loc0 ((alGet (locPhase2 (locPhase1 file)) k).getD []) := by
  rw [locs_get_eq hc k] at hL
  obtain ⟨loc0, h1, h2⟩ := Option.map_eq_some'.1 hL
  exact ⟨loc0, h1, h2.symm⟩

theorem length_filterMap_isSome {α β : Type} (f : α → Option β) :
    ∀ l : List α, (∀ x ∈ l, (f x).isSome = true) → (l.filterMap f).length = l.length := by
  intro l
  induction l with
  | nil => intro _; rfl
  | cons a rest ih =>
    intro h
    obtain ⟨b, hb⟩ := Option.isSome_iff_exists.1 (h a (List.mem_cons_self a rest))
    rw [List.filterMap_cons, hb, List.length_cons, List.length_cons,
      ih (fun x hx => h x (List.mem_cons_of_mem a hx))]

/-! ## Claim theorems -/

/-- Claim C1: the claim states that `Locations::from` never reaches the
`unwrap` panic in the final children-assignment pass and that a location no
other record names as a parent ends up with an explicit empty children
sequence. The code violates this: on the spec's own castle/tower input the
record `tower` is nobody's parent, so the temporary children map has no entry
for it and `children_locations.remove(id).unwrap()` panics (modelled as
`none`). -/
theorem locations_from_unwrap_reached : locationsFrom castleTowerFile = none := by decide

/-- Claim C2: the claim states that construction from the castle/tower drafts
succeeds and the parent/child queries give the scenario's answers. The code
instead hits the `unwrap` panic during construction on exactly this input, so
no index is ever produced. -/
theorem scenario_construction_fails : (locationsFrom castleTowerFile).isSome = false := by
  decide

/-- Claim C3: immediately after a successful construction, a stored location's
derived `children_locations` holds exactly the ids of stored records whose
`parent_locations` contains this location's id; in particular every listed
child's record names this location as a parent. -/
theorem children_consistent_with_parents (file : LocationsFile) (locs : Locations)
    (hc : locationsFrom file = some locs) (k : String) (L : Location)
    (hL : locs.get k = some L) (x : String) :
    x ∈ L.children_locations ↔
      ∃ R, locs.get x = some R ∧ R.id = x ∧ L.id ∈ R.parent_locations := by
  obtain ⟨loc0, hloc0, hLe⟩ := locs_get_entry hc hL
  have h0 : loc0.id = k := locPhase1_key_id (alGet_mem hloc0)
  have hLid : L.id = k := by
    rw [hLe]
    exact h0
  have hLch : L.children_locations = (alGet (locPhase2 (locPhase1 file)) k).getD [] := by
    rw [hLe]
    rfl
  constructor
  · intro hx
    rw [hLch] at hx
    obtain ⟨loc, hmem, hk⟩ := (mem_locPhase2_iff _ k x).1 hx
    refine ⟨withChildren loc ((alGet (locPhase2 (locPhase1 file)) x).getD []), ?_, ?_, ?_⟩
    · rw [locs_get_eq hc x, mem_alGet (locPhase1_nodup file) hmem]
      rfl
    · have h1 : loc.id = x := locPhase1_key_id hmem
      exact h1
    · rw [hLid]
      exact hk
  · rintro ⟨R, hR, hRid, hRp⟩
    obtain ⟨loc, hloc, hRe⟩ := locs_get_entry hc hR
    have hp : L.id ∈ loc.parent_locations := by
      rw [hRe] at hRp
      exact hRp
    rw [hLch]
    exact (mem_locPhase2_iff _ k x).2 ⟨loc, alGet_mem hloc, hLid ▸ hp⟩

/-- Witness for C3 on the two-location parent cycle: `"b"` is a child of
`"a"` if and only if the stored record `"b"` names `"a"` as a parent. -/
theorem children_consistent_with_parents_witness :
    "b" ∈ (Location.mk "a" "A" ["b"] ["b"] none).children_locations ↔
      ∃ R, cycleIdx.get "b" = some R ∧ R.id = "b" ∧
        (Location.mk "a" "A" ["b"] ["b"] none).id ∈ R.parent_locations :=
  children_consistent_with_parents cycleFile cycleIdx (by decide) "a"
    (Location.mk "a" "A" ["b"] ["b"] none) (by decide) "b"

/-- Claim C10: after a successful construction every id stored in any
location's derived `children_locations` names a record present in primary
storage, so `iter_children` drops nothing and yields exactly one location per
element of the children list. -/
theorem children_resolve_in_storage (file : LocationsFile) (locs : Locations)
    (hc : locationsFrom file = some locs) (k : String) (L : Location)
    (hL : locs.get k = some L) :
    (∀ c ∈ L.children_locations, (locs.get c).isSome = true) ∧
    (locs.iter_children k).length = L.children_locations.length := by
  obtain ⟨loc0, hloc0, hLe⟩ := locs_get_entry hc hL
  have hLch : L.children_locations = (alGet (locPhase2 (locPhase1 file)) k).getD [] := by
    rw [hLe]
    rfl
  have hsome : ∀ c ∈ L.children_locations, (locs.get c).isSome = true := by
    intro c hcmem
    rw [hLch] at hcmem
    obtain ⟨loc, hmem, _⟩ := (mem_locPhase2_iff _ k c).1 hcmem
    rw [locs_get_eq hc c, mem_alGet (locPhase1_nodup file) hmem]
    rfl
  refine ⟨hsome, ?_⟩
  have hgetL : alGet locs.locations k = some L := hL
  rw [Locations.iter_children, hgetL]
  exact length_filterMap_isSome _ _ hsome

/-- Witness for C10 on the two-location parent cycle, at location `"a"` whose
children list is `["b"]`. -/
theorem children_resolve_in_storage_witness :
    (cycleIdx.iter_children "a").length =
      (Location.mk "a" "A" ["b"] ["b"] none).children_locations.length :=
  (children_resolve_in_storage cycleFile cycleIdx (by decide) "a"
    (Location.mk "a" "A" ["b"] ["b"] none) (by decide)).2

/-- Claim C4: after `insert(c)` (with no later mutation), `c` is among the
results of `get_by_person(p)` for every `p` in `c.persons`, and among the
results of `get_by_location(l)` for every `l` in `c.locations`. -/
theorem insert_mem_reverse_lookups (cs : Clues) (c : Clue) :
    (∀ p, p ∈ c.persons → c ∈ (cs.insert c).get_by_person p) ∧
    (∀ l, l ∈ c.locations → c ∈ (cs.insert c).get_by_location l) := by
  constructor
  · intro p hp
    rw [Clues.get_by_person]
    refine List.mem_filterMap.2 ⟨c.id, ?_, ?_⟩
    · rw [byPerson_insert]
      refine List.mem_append.2 (Or.inr ?_)
      exact List.mem_replicate.2 ⟨(occCount_ne_zero_iff _ _).2 hp, rfl⟩
    · show alGet (cs.insert c).clues c.id = some c
      simp [Clues.insert, alGet_alInsert_self]
  · intro l hl
    rw [Clues.get_by_location]
    refine List.mem_filterMap.2 ⟨c.id, ?_, ?_⟩
    · rw [byLocation_insert]
      refine List.mem_append.2 (Or.inr ?_)
      exact List.mem_replicate.2 ⟨(occCount_ne_zero_iff _ _).2 hl, rfl⟩
    · show alGet (cs.insert c).clues c.id = some c
      simp [Clues.insert, alGet_alInsert_self]

/-- Witness for C4: inserting the scenario clue `c1` into an empty index makes
it visible under person `alice` and location `castle`. -/
theorem insert_mem_reverse_lookups_witness :
    c1clue ∈ (Clues.new.insert c1clue).get_by_person "alice" ∧
    c1clue ∈ (Clues.new.insert c1clue).get_by_location "castle" :=
  ⟨(insert_mem_reverse_lookups Clues.new c1clue).1 "alice" (by decide),
   (insert_mem_reverse_lookups Clues.new c1clue).2 "castle" (by decide)⟩

/-- Claim C5: every clue produced by `get_by_person_and_location(p, l)` also
appears in `get_by_person(p)` (the result is even a sublist of it, since the
person sequence drives iteration) and in `get_by_location(l)`; order and
duplicates follow the person sequence and unresolved ids are dropped, as the
sublist relationship with `get_by_person` expresses. -/
theorem person_and_location_subset (cs : Clues) (p l : String) :
    List.Sublist (cs.get_by_person_and_location p l) (cs.get_by_person p) ∧
    ∀ x ∈ cs.get_by_person_and_location p l, x ∈ cs.get_by_location l := by
  constructor
  · simp only [Clues.get_by_person_and_location, Clues.get_by_person]
    exact (List.filter_sublist _).filterMap _
  · intro x hx
    simp only [Clues.get_by_person_and_location] at hx
    obtain ⟨i, hi, hres⟩ := List.mem_filterMap.1 hx
    have hiloc : i ∈ (alGet cs.by_location l).getD [] := by
      have hc := List.of_mem_filter hi
      simpa using hc
    exact List.mem_filterMap.2 ⟨i, hiloc, hres⟩

/-- Witness for C5 on the clue scenario: `c1` is the sole intersection result
for (`alice`, `castle`) and indeed appears under location `castle`. -/
theorem person_and_location_subset_witness :
    c1clue ∈ demoClues.get_by_location "castle" :=
  (person_and_location_subset demoClues "alice" "castle").2 c1clue (by decide)

/-- Claim C7: re-inserting a clue whose id is already present replaces the
primary record, while still appending the id once per reference to every
referenced person's and location's reverse-lookup sequence; earlier
reverse-lookup entries are all retained (they form a prefix). -/
theorem insert_overwrite_appends (cs : Clues) (c : Clue) (old : Clue)
    (_hprev : cs.get c.id = some old) :
    (cs.insert c).get c.id = some c ∧
    (∀ p, (alGet (cs.insert c).by_person p).getD [] =
      (alGet cs.by_person p).getD [] ++ List.replicate (occCount c.persons p) c.id) ∧
    (∀ l, (alGet (cs.insert c).by_location l).getD [] =
      (alGet cs.by_location l).getD [] ++ List.replicate (occCount c.locations l) c.id) :=
  ⟨get_insert_self cs c, fun p => byPerson_insert cs c p, fun l => byLocation_insert cs c l⟩

/-- Witness for C7: re-inserting id `c1` with new content replaces the primary
record. -/
theorem insert_overwrite_appends_witness :
    (demoClues.insert c3clue).get "c1" = some c3clue :=
  (insert_overwrite_appends demoClues c3clue c1clue (by decide)).1

/-- Claim C9: each reverse-lookup sequence of an index built by `from` lists
clue ids in input order, one entry per reference (`occCount` counts the
references a single clue makes); concretely, the spec's two-clue scenario
yields `[c1, c2]` for `get_by_person("alice")` and `[c1]` for
`get_by_person_and_location("alice", "castle")`. -/
theorem reverse_lookup_order :
    (∀ (file : CluesFile) (p : String),
      (alGet (cluesFrom file).by_person p).getD [] =
        (file.clues.map (fun c => List.replicate (occCount c.persons p) c.id)).flatten) ∧
    (∀ (file : CluesFile) (l : String),
      (alGet (cluesFrom file).by_location l).getD [] =
        (file.clues.map (fun c => List.replicate (occCount c.locations l) c.id)).flatten) ∧
    demoClues.get_by_person "alice" = [c1clue, c2clue] ∧
    demoClues.get_by_person_and_location "alice" "castle" = [c1clue] := by
  refine ⟨?_, ?_, by decide, by decide⟩
  · intro file p
    rw [cluesFrom, byPerson_foldl]
    simp [Clues.new, alGet]
  · intro file l
    rw [cluesFrom, byLocation_foldl]
    simp [Clues.new, alGet]

/-- Claim C6: lookup misses are empty/absent results, never faults: an index
built from an empty record sequence answers every accessor with an
empty/absent result, and for indexes built from any input, an id never
inserted (never a clue id / never referenced / never a draft id) yields
`none` from `get` and `[]` from every sequence accessor. -/
theorem lookup_miss_empty :
    ((∀ i : String, (cluesFrom ⟨[]⟩).get i = none ∧ (cluesFrom ⟨[]⟩).get_by_person i = [] ∧
        (cluesFrom ⟨[]⟩).get_by_location i = [] ∧
        ∀ j : String, (cluesFrom ⟨[]⟩).get_by_person_and_location i j = []) ∧
      locationsFrom ⟨[]⟩ = some ⟨[]⟩ ∧
      ∀ i : String, (Locations.mk []).get i = none ∧
        (Locations.mk []).iter_parents i = [] ∧ (Locations.mk []).iter_children i = []) ∧
    (∀ (file : CluesFile) (i : String), (∀ c ∈ file.clues, ¬ c.id = i) →
      (cluesFrom file).get i = none) ∧
    (∀ (file : CluesFile) (p : String), (∀ c ∈ file.clues, p ∉ c.persons) →
      (cluesFrom file).get_by_person p = [] ∧
      ∀ l : String, (cluesFrom file).get_by_person_and_location p l = []) ∧
    (∀ (file : CluesFile) (l : String), (∀ c ∈ file.clues, l ∉ c.locations) →
      (cluesFrom file).get_by_location l = []) ∧
    (∀ (file : LocationsFile) (locs : Locations) (i : String),
      locationsFrom file = some locs → (∀ d ∈ file.locations, ¬ d.id = i) →
      locs.get i = none ∧ locs.iter_parents i = [] ∧ locs.iter_children i = []) := by
  refine ⟨⟨fun i => ⟨rfl, rfl, rfl, fun j => rfl⟩, rfl, fun i => ⟨rfl, rfl, rfl⟩⟩,
    ?_, ?_, ?_, ?_⟩
  · intro file i h
    rw [Clues.get, cluesFrom, get_foldl_not_mem file.clues h]
    rfl
  · intro file p h
    have hbp : (alGet (cluesFrom file).by_person p).getD [] = [] := by
      rw [cluesFrom, byPerson_foldl]
      have hflat : (file.clues.map
          (fun c => List.replicate (occCount c.persons p) c.id)).flatten = [] := by
        rw [List.flatten_eq_nil_iff]
        intro l hl
        obtain ⟨c, hc, he⟩ := List.mem_map.1 hl
        rw [← he, occCount_eq_zero (h c hc)]
        rfl
      rw [hflat]
      rfl
    constructor
    · rw [Clues.get_by_person, hbp]
      rfl
    · intro l
      simp [Clues.get_by_person_and_location, hbp]
  · intro file l h
    have hbl : (alGet (cluesFrom file).by_location l).getD [] = [] := by
      rw [cluesFrom, byLocation_foldl]
      have hflat : (file.clues.map
          (fun c => List.replicate (occCount c.locations l) c.id)).flatten = [] := by
        rw [List.flatten_eq_nil_iff]
        intro q hq
        obtain ⟨c, hc, he⟩ := List.mem_map.1 hq
        rw [← he, occCount_eq_zero (h c hc)]
        rfl
      rw [hflat]
      rfl
    rw [Clues.get_by_location, hbl]
    rfl
  · intro file locs i hcon h
    have hnone : alGet (locPhase1 file) i = none := by
      rw [alGet_eq_none_iff]
      intro hmem
      obtain ⟨q, hq, hqf⟩ := List.mem_map.1 hmem
      obtain ⟨d, hd, he⟩ := mem_locPhase1 hq
      apply h d hd
      rw [he] at hqf
      exact hqf
    have hget : locs.get i = none := by
      rw [locs_get_eq hcon i, hnone]
      rfl
    have hget' : alGet locs.locations i = none := hget
    exact ⟨hget, by simp [Locations.iter_parents, hget'],
      by simp [Locations.iter_children, hget']⟩

/-- Witness for C6: the id `zzz` was never inserted into either demo index,
and both lookups return an absent result. -/
theorem lookup_miss_empty_witness :
    (cluesFrom demoFile).get "zzz" = none ∧ cycleIdx.get "zzz" = none :=
  ⟨lookup_miss_empty.2.1 demoFile "zzz" (by decide),
   (lookup_miss_empty.2.2.2.2 cycleFile cycleIdx "zzz" (by decide) (by decide)).1⟩
